import Mathlib

/-!
Verification of the file organizer (organizer.py) against its specification.

The program is embedded shallowly: a path is its list of components
(already resolved, so path equality is component-list equality), and the
filesystem is the pair of lists of existing regular files and existing
directories.  Pure helpers of the source (categorize, unique_destination,
plan_moves, apply_moves, load_rules, iter_files, main) become Lean
functions over this state; the only loop without a structural measure
(the collision counter of unique_destination) receives explicit fuel,
shown sufficient by a pigeonhole argument.
-/

/-- A filesystem path, as its list of components (already resolved). -/
abbrev FPath := List String

/-- Filesystem state: the existing regular files and the existing
directories, files in traversal order. -/
structure FS where
  files : List FPath
  dirs : List FPath
  deriving DecidableEq

/-- A path exists on the filesystem (as a file or as a directory);
model of Path.exists. -/
def FS.pexists (fs : FS) (p : FPath) : Prop := p ∈ fs.files ∨ p ∈ fs.dirs

instance (fs : FS) (p : FPath) : Decidable (fs.pexists p) :=
  inferInstanceAs (Decidable (_ ∨ _))

/-- All nonempty prefixes of a path, shortest first. -/
def pathPrefixes (p : FPath) : List FPath :=
  (List.range p.length).map (fun n => p.take (n + 1))

/-- Model of Path.mkdir(parents=True, exist_ok=True): the directory and
all its ancestors come to exist; files are untouched. -/
def FS.mkdirP (fs : FS) (d : FPath) : FS :=
  { fs with dirs := pathPrefixes d ++ fs.dirs }

/-- Total number of filesystem entries; used as fuel for the collision loop. -/
def FS.size (fs : FS) : Nat := fs.files.length + fs.dirs.length

/-- Python Path.name: the final path component. -/
def fname (p : FPath) : String := p.getLastD ""

/-- Model of Python str.lower (character-wise lower-casing). -/
def toLowerStr (s : String) : String := ⟨s.data.map Char.toLower⟩

/-- Model of Python str.strip with no argument: drop leading and trailing
whitespace. -/
def trimStr (s : String) : String :=
  ⟨((s.data.dropWhile Char.isWhitespace).reverse.dropWhile Char.isWhitespace).reverse⟩

/-- Decimal digit character. -/
def digitChar (d : Nat) : Char := Char.ofNat (48 + d)

/-- Little-endian decimal digits of n, with explicit fuel (fuel at least n
suffices). -/
def toDigitsRevAux : Nat → Nat → List Char
  | 0, _ => []
  | fuel + 1, n => if n = 0 then [] else digitChar (n % 10) :: toDigitsRevAux fuel (n / 10)

/-- Decimal rendering of a natural number, as Python string formatting
produces it. -/
def natRepr (n : Nat) : String :=
  if n = 0 then "0" else ⟨(toDigitsRevAux n n).reverse⟩

/-- Value of a little-endian list of digit characters. -/
def fromDigitsRev : List Char → Nat
  | [] => 0
  | c :: cs => (c.toNat - 48) + 10 * fromDigitsRev cs

/-- Left inverse of natRepr. -/
def decodeNat (s : String) : Nat := fromDigitsRev s.data.reverse

/-- Split a character list at its last dot: the parts strictly before and
strictly after it. -/
def splitLastDot : List Char → Option (List Char × List Char)
  | [] => none
  | c :: rest =>
    match splitLastDot rest with
    | some (b, a) => some (c :: b, a)
    | none => if c = '.' then some ([], rest) else none

/-- Python PurePath.suffix of a file name: the final extension including
its dot; empty when the last dot is leading, trailing, or absent. -/
def suffixOf (name : String) : String :=
  match splitLastDot name.data with
  | some (b, a) => if b ≠ [] ∧ a ≠ [] then ⟨'.' :: a⟩ else ""
  | none => ""

/-- Python PurePath.stem of a file name. -/
def stemOf (name : String) : String :=
  match splitLastDot name.data with
  | some (b, a) => if b ≠ [] ∧ a ≠ [] then ⟨b⟩ else name
  | none => name

/-- Does the character list start with a dot. -/
def startsWithDot : List Char → Bool
  | [] => false
  | c :: _ => c == '.'

/-- Does the character list contain a slash immediately followed by a dot
(the second alternative of HIDDEN_PATTERN). -/
def hasSlashDot : List Char → Bool
  | [] => false
  | c :: rest => (c == '/' && startsWithDot rest) || hasSlashDot rest

/-- Model of re.search with HIDDEN_PATTERN on a path string: the string
starts with a dot, or a slash-dot occurs somewhere in it. -/
def hiddenSearch (s : List Char) : Bool := startsWithDot s || hasSlashDot s

/-- Join path components with slashes (the POSIX string of a relative path). -/
def joinSegs : List (List Char) → List Char
  | [] => []
  | [s] => s
  | s :: rest => s ++ '/' :: joinSegs rest

/-- Model of str(p.relative_to(root)) for root a component prefix of p. -/
def relChars (root p : FPath) : List Char :=
  joinSegs ((p.drop root.length).map String.data)

/-- Whether a is a component-wise prefix of b. -/
def isPrefixB : FPath → FPath → Bool
  | [], _ => true
  | _ :: _, [] => false
  | a :: as, b :: bs => a == b && isPrefixB as bs

/-- Model of iter_files: the regular files the enumerator yields, in
filesystem list order. -/
def iter_files (fs : FS) (root : FPath) (recursive includeHidden : Bool) : List FPath :=
  if recursive then
    fs.files.filter (fun p =>
      isPrefixB root p && decide (root.length < p.length) &&
      (includeHidden || !(hiddenSearch (relChars root p))))
  else
    fs.files.filter (fun p =>
      isPrefixB root p && (p.length == root.length + 1) &&
      (includeHidden || !(startsWithDot (fname p).data)))

/-- The built-in extension-to-category table, in source order. -/
def DEFAULT_RULES : List (String × String) := [
  (".pdf", "docs"),
  (".doc", "docs"), (".docx", "docs"), (".odt", "docs"),
  (".txt", "docs"), (".md", "docs"), (".rtf", "docs"),
  (".xls", "sheets"), (".xlsx", "sheets"), (".csv", "sheets"),
  (".ppt", "slides"), (".pptx", "slides"),
  (".jpg", "images"), (".jpeg", "images"), (".png", "images"), (".gif", "images"),
  (".tif", "images"), (".tiff", "images"), (".bmp", "images"), (".webp", "images"),
  (".mp3", "audio"), (".wav", "audio"), (".flac", "audio"), (".m4a", "audio"),
  (".mp4", "video"), (".mov", "video"), (".mkv", "video"), (".avi", "video"),
  (".zip", "archives"), (".rar", "archives"), (".7z", "archives"),
  (".tar", "archives"), (".gz", "archives"),
  (".py", "code"), (".ipynb", "code"), (".js", "code"), (".ts", "code"),
  (".json", "data"),
  (".yml", "config"), (".yaml", "config"), (".toml", "config")]

/-- Python dict lookup for a dict built by inserting the pairs in order
(a later pair overwrites an earlier one with the same key). -/
def dictGet (d : List (String × String)) (k : String) : Option String :=
  d.foldl (fun acc kv => if kv.1 = k then some kv.2 else acc) none

/-- Key normalization performed by load_rules: strip, lower-case, and
ensure a leading dot. -/
def normalizeKey (k : String) : String :=
  let kt := toLowerStr (trimStr k)
  if startsWithDot kt.data then kt else "." ++ kt

/-- Model of load_rules on already-parsed rules data (a list of key-value
pairs); no path means the built-in table. -/
def load_rules (data : Option (List (String × String))) : List (String × String) :=
  match data with
  | none => DEFAULT_RULES
  | some d => d.map (fun kv => (normalizeKey kv.1, kv.2))

/-- Model of categorize: look up the lower-cased final suffix of the file
name, falling back to the unknown category. -/
def categorize (p : FPath) (rules : List (String × String)) (unknown : String) : String :=
  let ext := toLowerStr (suffixOf (fname p))
  match dictGet rules ext with
  | some v => v
  | none => unknown

/-- The renamed candidate file name built by the collision loop. -/
def numberedName (stem sfx : String) (i : Nat) : String :=
  stem ++ " (" ++ natRepr i ++ ")" ++ sfx

/-- The i-th renamed candidate path inside the target directory. -/
def candAt (dstDir : FPath) (stem sfx : String) (i : Nat) : FPath :=
  dstDir ++ [numberedName stem sfx i]

/-- The collision loop of unique_destination, with explicit fuel; the fuel
used below always suffices, by the pigeonhole lemmas further down. -/
def uniqueLoop (fs : FS) (dstDir : FPath) (stem sfx : String) : Nat → Nat → FPath
  | 0, i => candAt dstDir stem sfx i
  | fuel + 1, i =>
    let c := candAt dstDir stem sfx i
    if fs.pexists c then uniqueLoop fs dstDir stem sfx fuel (i + 1) else c

/-- Model of unique_destination. -/
def unique_destination (fs : FS) (dstDir : FPath) (name : String) : FPath :=
  let candidate := dstDir ++ [name]
  if fs.pexists candidate then
    uniqueLoop fs dstDir (stemOf name) (suffixOf name) (fs.size + 1) 2
  else candidate

/-- A planned move. -/
structure MovePlan where
  src : FPath
  dst : FPath
  deriving DecidableEq

/-- The per-file body of plan_moves, folded over the enumerated files,
threading the filesystem state mutated by directory creation. -/
def planGo (dest : FPath) (rules : List (String × String)) (unknown : String) :
    List FPath → FS → List MovePlan × FS
  | [], fs => ([], fs)
  | file :: rest, fs =>
    let category := categorize file rules unknown
    let targetDir := dest ++ [category]
    let fs1 := fs.mkdirP targetDir
    let dst := unique_destination fs1 targetDir (fname file)
    let r := planGo dest rules unknown rest fs1
    if file = dst then r else (⟨file, dst⟩ :: r.1, r.2)

/-- Model of plan_moves: directories created while planning are visible to
the existence checks of later files, but no file is created or moved. -/
def plan_moves (source dest : FPath) (recursive includeHidden : Bool)
    (rules : List (String × String)) (unknown : String) (fs : FS) :
    List MovePlan × FS :=
  planGo dest rules unknown (iter_files fs source recursive includeHidden) fs

/-- Result of apply_moves: success count, failure count, error messages,
and the resulting filesystem. -/
structure ApplyResult where
  ok : Nat
  failed : Nat
  errors : List String
  fs : FS
  deriving DecidableEq

/-- Rendered form of a path inside messages. -/
def renderPath (p : FPath) : String := ⟨joinSegs (p.map String.data)⟩

/-- A file comes to exist at p, replacing any file already there (the
overwrite semantics of the underlying move primitive). -/
def insertFile (p : FPath) (l : List FPath) : List FPath :=
  if p ∈ l then l else p :: l

/-- Model of apply_moves: best-effort execution of the plan; a move fails
when its source no longer exists, failures are recorded as one message
each, and a failure does not stop the remaining items. -/
def apply_moves (fs : FS) : List MovePlan → ApplyResult
  | [] => ⟨0, 0, [], fs⟩
  | m :: rest =>
    let fs1 := fs.mkdirP m.dst.dropLast
    if m.src ∈ fs1.files then
      let fs2 : FS := { fs1 with files := insertFile m.dst (fs1.files.erase m.src) }
      let r := apply_moves fs2 rest
      ⟨r.ok + 1, r.failed, r.errors, r.fs⟩
    else
      let r := apply_moves fs1 rest
      ⟨r.ok, r.failed + 1,
        ("Failed: " ++ renderPath m.src ++ " -> " ++ renderPath m.dst) :: r.errors, r.fs⟩

/-- Parsed command-line arguments, after argparse. -/
structure Args where
  source : FPath
  dest : Option FPath
  rulesData : Option (List (String × String))
  unknownFolder : String
  recursive : Bool
  includeHidden : Bool
  dryRun : Bool
  yes : Bool
  writeDefaultRules : Option FPath
  deriving DecidableEq

/-- Observable outcome of one process run. -/
structure RunResult where
  exitCode : Nat
  fs : FS
  moved : Nat
  failedCount : Nat
  moverRan : Bool
  organizeRan : Bool
  prompted : Bool
  written : List (FPath × List (String × String))
  output : List String
  deriving DecidableEq

/-- The confirmation predicate of main: the stripped, lower-cased input
line equals y; end-of-input counts as a refusal. -/
def affirmative : Option String → Bool
  | none => false
  | some s => toLowerStr (trimStr s) == "y"

/-- Model of main after argument parsing: runs the pipeline on the given
filesystem with the given standard-input line, reporting the outcome. -/
def main_model (a : Args) (stdin : Option String) (fs : FS) : RunResult :=
  match a.writeDefaultRules with
  | some p =>
    if fs.pexists p then
      { exitCode := 1, fs := fs, moved := 0, failedCount := 0, moverRan := false,
        organizeRan := false, prompted := false, written := [],
        output := ["Refusing to overwrite existing rules file: " ++ renderPath p] }
    else
      { exitCode := 0, fs := { fs with files := p :: fs.files }, moved := 0,
        failedCount := 0, moverRan := false, organizeRan := false, prompted := false,
        written := [(p, DEFAULT_RULES)],
        output := ["Wrote default rules to " ++ renderPath p] }
  | none =>
    let source := a.source
    let dest := a.dest.getD a.source
    if source ∈ fs.dirs then
      let rules := load_rules a.rulesData
      let pr := plan_moves source dest a.recursive a.includeHidden rules a.unknownFolder fs
      if pr.1 = [] then
        { exitCode := 0, fs := pr.2, moved := 0, failedCount := 0, moverRan := false,
          organizeRan := true, prompted := false, written := [],
          output := ["Nothing to do - no files matched."] }
      else if a.dryRun then
        { exitCode := 0, fs := pr.2, moved := 0, failedCount := 0, moverRan := false,
          organizeRan := true, prompted := false, written := [],
          output := ["preview", "Dry-run: no files were moved."] }
      else if a.yes || affirmative stdin then
        let r := apply_moves pr.2 pr.1
        { exitCode := if r.errors = [] then 0 else if r.failed = 0 then 0 else 2,
          fs := r.fs, moved := r.ok, failedCount := r.failed, moverRan := true,
          organizeRan := true, prompted := !a.yes, written := [],
          output := ["preview", "Done."] }
      else
        { exitCode := 0, fs := pr.2, moved := 0, failedCount := 0, moverRan := false,
          organizeRan := true, prompted := true, written := [],
          output := ["preview", "Aborted."] }
    else
      { exitCode := 1, fs := fs, moved := 0, failedCount := 0, moverRan := false,
        organizeRan := false, prompted := false, written := [],
        output := ["Error: source not found or not a directory: " ++ renderPath source] }

/-! ## Helper lemmas: decimal rendering -/

theorem digitChar_toNat : ∀ d, d < 10 → (digitChar d).toNat = 48 + d := by decide

theorem fromDigits_toDigitsAux : ∀ fuel n, n ≤ fuel →
    fromDigitsRev (toDigitsRevAux fuel n) = n := by
  intro fuel
  induction fuel with
  | zero =>
    intro n h
    have : n = 0 := Nat.le_zero.mp h
    subst this
    rfl
  | succ f ih =>
    intro n h
    by_cases h0 : n = 0
    · subst h0; rfl
    · have hlt : n % 10 < 10 := Nat.mod_lt n (by decide)
      have hdiv : n / 10 ≤ f := by
        have := Nat.div_lt_self (Nat.pos_of_ne_zero h0) (by decide : 1 < 10)
        omega
      simp only [toDigitsRevAux, h0, if_false, fromDigitsRev]
      rw [digitChar_toNat _ hlt, ih _ hdiv]
      omega

theorem decodeNat_natRepr (n : Nat) : decodeNat (natRepr n) = n := by
  unfold natRepr decodeNat
  by_cases h : n = 0
  · subst h; decide
  · simp only [h, if_false]
    show fromDigitsRev (toDigitsRevAux n n).reverse.reverse = n
    rw [List.reverse_reverse]
    exact fromDigits_toDigitsAux n n le_rfl

theorem natRepr_inj : Function.Injective natRepr := by
  intro a b h
  have ha := decodeNat_natRepr a
  rw [h, decodeNat_natRepr b] at ha
  exact ha.symm

theorem numberedName_inj (stem sfx : String) :
    Function.Injective (numberedName stem sfx) := by
  intro i j h
  apply natRepr_inj
  unfold numberedName at h
  have hd := congrArg String.data h
  simp only [String.data_append, List.append_assoc] at hd
  have h1 := List.append_cancel_left hd
  have h2 := List.append_cancel_left h1
  have h3 := List.append_cancel_right h2
  exact String.ext h3

theorem candAt_inj (d : FPath) (stem sfx : String) :
    Function.Injective (candAt d stem sfx) := by
  intro i j h
  unfold candAt at h
  have h1 := List.append_cancel_left h
  exact numberedName_inj stem sfx (List.cons.inj h1).1

/-! ## Helper lemmas: the collision loop -/

theorem exists_free (fs : FS) (d : FPath) (stem sfx : String) (start : Nat) :
    ∃ j, j < fs.size + 1 ∧ ¬ fs.pexists (candAt d stem sfx (start + j)) := by
  by_contra hc
  push_neg at hc
  have hsub : ((List.range (fs.size + 1)).map
      (fun j => candAt d stem sfx (start + j))) ⊆ fs.files ++ fs.dirs := by
    intro x hx
    rcases List.mem_map.mp hx with ⟨j, hj, rfl⟩
    rcases hc j (List.mem_range.mp hj) with h | h
    · exact List.mem_append.mpr (Or.inl h)
    · exact List.mem_append.mpr (Or.inr h)
  have hinj : Function.Injective (fun j => candAt d stem sfx (start + j)) := by
    intro j₁ j₂ hj
    have := candAt_inj d stem sfx hj
    omega
  have hnd := (List.nodup_range (fs.size + 1)).map hinj
  have hlen := (hnd.subperm hsub).length_le
  simp only [List.length_map, List.length_range, List.length_append] at hlen
  unfold FS.size at hlen
  omega

theorem uniqueLoop_spec (fs : FS) (d : FPath) (stem sfx : String) :
    ∀ fuel start, (∃ j, j < fuel ∧ ¬ fs.pexists (candAt d stem sfx (start + j))) →
    ∃ k, start ≤ k ∧ uniqueLoop fs d stem sfx fuel start = candAt d stem sfx k ∧
      ¬ fs.pexists (candAt d stem sfx k) ∧
      ∀ i, start ≤ i → i < k → fs.pexists (candAt d stem sfx i) := by
  intro fuel
  induction fuel with
  | zero =>
    rintro start ⟨j, hj, -⟩
    exact absurd hj (Nat.not_lt_zero j)
  | succ f ih =>
    rintro start ⟨j, hj, hfree⟩
    by_cases hex : fs.pexists (candAt d stem sfx start)
    · have hj0 : j ≠ 0 := by
        rintro rfl
        exact hfree (by simpa using hex)
      obtain ⟨j', rfl⟩ : ∃ j', j = j' + 1 := ⟨j - 1, by omega⟩
      have hshift : start + 1 + j' = start + (j' + 1) := by omega
      obtain ⟨k, hk1, hk2, hk3, hk4⟩ :=
        ih (start + 1) ⟨j', by omega, by rw [hshift]; exact hfree⟩
      refine ⟨k, by omega, ?_, hk3, ?_⟩
      · simpa only [uniqueLoop, hex, if_true] using hk2
      · intro i hi1 hi2
        rcases Nat.eq_or_lt_of_le hi1 with rfl | hlt
        · exact hex
        · exact hk4 i hlt hi2
    · refine ⟨start, le_rfl, ?_, hex, ?_⟩
      · simp only [uniqueLoop, hex, if_false]
      · intro i h1 h2
        omega

theorem uniqueLoop_shape (fs : FS) (d : FPath) (stem sfx : String) :
    ∀ fuel start, ∃ k, uniqueLoop fs d stem sfx fuel start = candAt d stem sfx k := by
  intro fuel
  induction fuel with
  | zero => intro start; exact ⟨start, rfl⟩
  | succ f ih =>
    intro start
    by_cases hex : fs.pexists (candAt d stem sfx start)
    · obtain ⟨k, hk⟩ := ih (start + 1)
      exact ⟨k, by simpa only [uniqueLoop, hex, if_true] using hk⟩
    · exact ⟨start, by simp only [uniqueLoop, hex, if_false]⟩

/-! ## Helper lemmas: unique_destination -/

theorem unique_destination_of_free (fs : FS) (d : FPath) (name : String)
    (h : ¬ fs.pexists (d ++ [name])) : unique_destination fs d name = d ++ [name] := by
  unfold unique_destination
  simp only [h, if_false]

theorem unique_destination_of_collision (fs : FS) (d : FPath) (name : String)
    (h : fs.pexists (d ++ [name])) :
    ∃ k, 2 ≤ k ∧
      unique_destination fs d name = candAt d (stemOf name) (suffixOf name) k ∧
      ¬ fs.pexists (candAt d (stemOf name) (suffixOf name) k) ∧
      ∀ i, 2 ≤ i → i < k → fs.pexists (candAt d (stemOf name) (suffixOf name) i) := by
  obtain ⟨j, hj, hfree⟩ := exists_free fs d (stemOf name) (suffixOf name) 2
  obtain ⟨k, hk1, hk2, hk3, hk4⟩ :=
    uniqueLoop_spec fs d (stemOf name) (suffixOf name) (fs.size + 1) 2 ⟨j, hj, hfree⟩
  refine ⟨k, hk1, ?_, hk3, hk4⟩
  unfold unique_destination
  simp only [h, if_true]
  exact hk2

theorem unique_destination_fresh (fs : FS) (d : FPath) (name : String) :
    ¬ fs.pexists (unique_destination fs d name) := by
  by_cases h : fs.pexists (d ++ [name])
  · obtain ⟨k, -, h2, h3, -⟩ := unique_destination_of_collision fs d name h
    rw [h2]
    exact h3
  · rw [unique_destination_of_free fs d name h]
    exact h

theorem unique_destination_parent (fs : FS) (d : FPath) (name : String) :
    ∃ nm, unique_destination fs d name = d ++ [nm] := by
  unfold unique_destination
  by_cases h : fs.pexists (d ++ [name])
  · simp only [h, if_true]
    obtain ⟨k, hk⟩ := uniqueLoop_shape fs d (stemOf name) (suffixOf name) (fs.size + 1) 2
    exact ⟨numberedName (stemOf name) (suffixOf name) k, hk⟩
  · simp only [h, if_false]
    exact ⟨name, rfl⟩

/-! ## Helper lemmas: directory creation and planning -/

theorem mkdirP_files (fs : FS) (d : FPath) : (fs.mkdirP d).files = fs.files := rfl

theorem pexists_mkdirP (fs : FS) (d p : FPath) (h : fs.pexists p) :
    (fs.mkdirP d).pexists p := by
  rcases h with h | h
  · exact Or.inl h
  · exact Or.inr (List.mem_append.mpr (Or.inr h))

theorem planGo_files (dest : FPath) (rules : List (String × String)) (unknown : String) :
    ∀ files fs, ((planGo dest rules unknown files fs).2).files = fs.files := by
  intro files
  induction files with
  | nil => intro fs; rfl
  | cons file rest ih =>
    intro fs
    show (planGo dest rules unknown (file :: rest) fs).2.files = fs.files
    simp only [planGo]
    split
    · exact ih _
    · exact ih _

theorem planGo_dst_fresh (dest : FPath) (rules : List (String × String)) (unknown : String) :
    ∀ files fs, ∀ m ∈ (planGo dest rules unknown files fs).1, ¬ fs.pexists m.dst := by
  intro files
  induction files with
  | nil => intro fs m hm; simp [planGo] at hm
  | cons file rest ih =>
    intro fs m hm
    simp only [planGo] at hm
    set fs1 := fs.mkdirP (dest ++ [categorize file rules unknown]) with hfs1
    set dst := unique_destination fs1 (dest ++ [categorize file rules unknown]) (fname file)
      with hdst
    have hmono : ∀ q, fs.pexists q → fs1.pexists q := fun q hq =>
      pexists_mkdirP fs _ q hq
    split at hm
    · exact fun hx => ih fs1 m hm (hmono _ hx)
    · rcases List.mem_cons.mp hm with rfl | hm2
      · exact fun hx => unique_destination_fresh fs1 _ (fname file) (hmono _ hx)
      · exact fun hx => ih fs1 m hm2 (hmono _ hx)

theorem planGo_srcs (dest : FPath) (rules : List (String × String)) (unknown : String) :
    ∀ files fs, (∀ f ∈ files, f.length ≠ dest.length + 2) →
      (planGo dest rules unknown files fs).1.map MovePlan.src = files ∧
      ∀ m ∈ (planGo dest rules unknown files fs).1, m.dst.length = dest.length + 2 := by
  intro files
  induction files with
  | nil => intro fs h; exact ⟨rfl, by simp [planGo]⟩
  | cons file rest ih =>
    intro fs h
    set fs1 := fs.mkdirP (dest ++ [categorize file rules unknown]) with hfs1
    obtain ⟨nm, hnm⟩ :=
      unique_destination_parent fs1 (dest ++ [categorize file rules unknown]) (fname file)
    have hdlen : (unique_destination fs1 (dest ++ [categorize file rules unknown])
        (fname file)).length = dest.length + 2 := by
      rw [hnm]
      simp
    have hne : file ≠ unique_destination fs1 (dest ++ [categorize file rules unknown])
        (fname file) := by
      intro he
      exact h file (List.mem_cons_self file rest) (by rw [he, hdlen])
    obtain ⟨ih1, ih2⟩ := ih fs1 (fun f hf => h f (List.mem_cons_of_mem _ hf))
    constructor
    · simp only [planGo, hne, if_false, List.map_cons, ih1]
    · intro m hm
      simp only [planGo, hne, if_false] at hm
      rcases List.mem_cons.mp hm with rfl | hm2
      · exact hdlen
      · exact ih2 m hm2


/-! ## Helper lemmas: executing the plan -/

theorem mem_insertFile (a p : FPath) (l : List FPath) :
    a ∈ insertFile p l ↔ a = p ∨ a ∈ l := by
  unfold insertFile
  split
  · rename_i hin
    constructor
    · exact fun h => Or.inr h
    · rintro (rfl | h)
      · exact hin
      · exact h
  · exact List.mem_cons

theorem nodup_insertFile (p : FPath) (l : List FPath) (h : l.Nodup) :
    (insertFile p l).Nodup := by
  unfold insertFile
  split
  · exact h
  · rename_i hn
    exact List.nodup_cons.mpr ⟨hn, h⟩

theorem apply_moves_counts : ∀ (moves : List MovePlan) (fs : FS),
    (apply_moves fs moves).ok + (apply_moves fs moves).failed = moves.length ∧
    (apply_moves fs moves).errors.length = (apply_moves fs moves).failed := by
  intro moves
  induction moves with
  | nil => intro fs; exact ⟨rfl, rfl⟩
  | cons m rest ih =>
    intro fs
    simp only [apply_moves]
    split
    · obtain ⟨h1, h2⟩ := ih ⟨insertFile m.dst ((fs.mkdirP m.dst.dropLast).files.erase m.src),
        (fs.mkdirP m.dst.dropLast).dirs⟩
      dsimp only
      refine ⟨?_, h2⟩
      simp only [List.length_cons]
      omega
    · obtain ⟨h1, h2⟩ := ih (fs.mkdirP m.dst.dropLast)
      dsimp only
      constructor
      · simp only [List.length_cons]
        omega
      · simp only [List.length_cons]
        omega

theorem apply_moves_files_subset : ∀ (moves : List MovePlan) (fs : FS) (p : FPath),
    p ∈ (apply_moves fs moves).fs.files → p ∈ fs.files ∨ p ∈ moves.map MovePlan.dst := by
  intro moves
  induction moves with
  | nil => intro fs p h; exact Or.inl h
  | cons m rest ih =>
    intro fs p h
    simp only [apply_moves] at h
    split at h
    · rcases ih _ p h with h1 | h1
      · rcases (mem_insertFile p m.dst _).mp h1 with rfl | h2
        · exact Or.inr (by simp)
        · rw [mkdirP_files] at h2
          exact Or.inl (List.mem_of_mem_erase h2)
      · exact Or.inr (by simp [h1])
    · rcases ih _ p h with h1 | h1
      · rw [mkdirP_files] at h1
        exact Or.inl h1
      · exact Or.inr (by simp [h1])

theorem apply_moves_removes : ∀ (moves : List MovePlan) (fs : FS) (p : FPath),
    fs.files.Nodup → (moves.map MovePlan.src).Nodup →
    p ∈ moves.map MovePlan.src → p ∉ moves.map MovePlan.dst →
    p ∉ (apply_moves fs moves).fs.files := by
  intro moves
  induction moves with
  | nil => intro fs p _ _ hsrc _; simp at hsrc
  | cons m rest ih =>
    intro fs p hnd hsnd hsrc hdst
    simp only [List.map_cons, List.mem_cons] at hsrc hdst
    simp only [List.map_cons] at hsnd
    push_neg at hdst
    obtain ⟨hpd, hrdst⟩ := hdst
    by_cases hp : p = m.src
    · subst hp
      intro hfin
      simp only [apply_moves] at hfin
      split at hfin
      · rcases apply_moves_files_subset rest _ _ hfin with h1 | h1
        · rcases (mem_insertFile _ m.dst _).mp h1 with h2 | h2
          · exact hpd h2
          · rw [mkdirP_files] at h2
            exact (hnd.mem_erase_iff.mp h2).1 rfl
        · exact hrdst h1
      · rename_i hin
        rcases apply_moves_files_subset rest _ _ hfin with h1 | h1
        · exact hin h1
        · exact hrdst h1
    · have hrsrc : p ∈ rest.map MovePlan.src := hsrc.resolve_left hp
      simp only [apply_moves]
      split
      · have hnd2 : (insertFile m.dst
            ((fs.mkdirP m.dst.dropLast).files.erase m.src)).Nodup := by
          rw [mkdirP_files]
          exact nodup_insertFile _ _ (hnd.erase m.src)
        exact ih _ p hnd2 hsnd.of_cons hrsrc hrdst
      · have hnd2 : ((fs.mkdirP m.dst.dropLast).files).Nodup := by
          rw [mkdirP_files]; exact hnd
        exact ih _ p hnd2 hsnd.of_cons hrsrc hrdst

/-! ## Helper lemmas: names, suffixes, prefixes -/

theorem fname_append (root : FPath) (n : String) : fname (root ++ [n]) = n := by
  unfold fname
  simp

theorem splitLastDot_of_no_dot : ∀ l : List Char, ('.' : Char) ∉ l →
    splitLastDot l = none := by
  intro l
  induction l with
  | nil => intro _; rfl
  | cons c cs ih =>
    intro h
    have hc : c ≠ '.' := fun e => h (by simp [e])
    have hcs : ('.' : Char) ∉ cs := fun e => h (by simp [e])
    simp only [splitLastDot, ih hcs]
    simp [hc]

theorem splitLastDot_decomp : ∀ (b a : List Char), ('.' : Char) ∉ a →
    splitLastDot (b ++ '.' :: a) = some (b, a) := by
  intro b
  induction b with
  | nil =>
    intro a ha
    simp only [List.nil_append, splitLastDot, splitLastDot_of_no_dot a ha]
    simp
  | cons c cs ih =>
    intro a ha
    simp only [List.cons_append, splitLastDot, List.append_eq, ih a ha]

theorem suffixOf_decomp (base ext : String) (hb : base.data ≠ []) (he : ext.data ≠ [])
    (hd : ('.' : Char) ∉ ext.data) : suffixOf (base ++ "." ++ ext) = "." ++ ext := by
  unfold suffixOf
  have hdata : (base ++ "." ++ ext).data = base.data ++ '.' :: ext.data := by
    simp [String.data_append]
  rw [hdata, splitLastDot_decomp base.data ext.data hd]
  simp only [hb, he, ne_eq, not_false_iff, and_self, if_true]
  apply String.ext
  simp [String.data_append]

theorem stemOf_decomp (base ext : String) (hb : base.data ≠ []) (he : ext.data ≠ [])
    (hd : ('.' : Char) ∉ ext.data) : stemOf (base ++ "." ++ ext) = base := by
  unfold stemOf
  have hdata : (base ++ "." ++ ext).data = base.data ++ '.' :: ext.data := by
    simp [String.data_append]
  rw [hdata, splitLastDot_decomp base.data ext.data hd]
  simp only [hb, he, ne_eq, not_false_iff, and_self, if_true]

theorem suffixOf_no_dot_tail (name : String) (h : ('.' : Char) ∉ name.data.drop 1) :
    suffixOf name = "" := by
  unfold suffixOf
  cases hnd : name.data with
  | nil => rfl
  | cons c rest =>
    have hr : ('.' : Char) ∉ rest := by
      rw [hnd] at h
      simpa using h
    by_cases hc : c = '.'
    · subst hc
      rw [show ('.' :: rest) = ([] ++ '.' :: rest) from rfl,
        splitLastDot_decomp [] rest hr]
      simp
    · have : ('.' : Char) ∉ c :: rest := by simp [Ne.symm, hr, fun e => hc e]
      rw [splitLastDot_of_no_dot _ this]

theorem isPrefixB_iff : ∀ a b : FPath, isPrefixB a b = true ↔ ∃ t, b = a ++ t := by
  intro a
  induction a with
  | nil =>
    intro b
    simp [isPrefixB]
  | cons x xs ih =>
    intro b
    cases b with
    | nil =>
      simp [isPrefixB]
    | cons y ys =>
      simp only [isPrefixB, Bool.and_eq_true, beq_iff_eq, ih ys]
      constructor
      · rintro ⟨rfl, t, rfl⟩
        exact ⟨t, rfl⟩
      · rintro ⟨t, ht⟩
        rw [List.cons_append] at ht
        obtain ⟨h1, h2⟩ := List.cons.inj ht
        exact ⟨h1.symm, t, h2⟩

/-! ## Helper lemmas: the hidden-entry pattern -/

theorem startsWithDot_append (s l : List Char) (h : s ≠ []) :
    startsWithDot (s ++ l) = startsWithDot s := by
  cases s with
  | nil => exact absurd rfl h
  | cons c cs => rfl

theorem hasSlashDot_append (s l : List Char) (h : ('/' : Char) ∉ s) :
    hasSlashDot (s ++ l) = hasSlashDot l := by
  induction s with
  | nil => rfl
  | cons c cs ih =>
    have hc : (c == '/') = false := by
      have : c ≠ '/' := fun e => h (by simp [e])
      exact beq_eq_false_iff_ne.mpr this
    have hcs : ('/' : Char) ∉ cs := fun e => h (by simp [e])
    simp only [List.cons_append, hasSlashDot, hc, Bool.false_and, Bool.false_or,
      List.append_eq]
    exact ih hcs

theorem hasSlashDot_of_no_slash (s : List Char) (h : ('/' : Char) ∉ s) :
    hasSlashDot s = false := by
  have := hasSlashDot_append s [] h
  simpa using this

theorem hiddenSearch_joinSegs : ∀ segs : List (List Char),
    (∀ s ∈ segs, s ≠ [] ∧ ('/' : Char) ∉ s) →
    (hiddenSearch (joinSegs segs) = true ↔ ∃ s ∈ segs, startsWithDot s = true) := by
  intro segs
  induction segs with
  | nil =>
    intro _
    simp [hiddenSearch, joinSegs, startsWithDot, hasSlashDot]
  | cons s rest ih =>
    intro hwf
    obtain ⟨hs1, hs2⟩ := hwf s (List.mem_cons_self s rest)
    cases rest with
    | nil =>
      simp only [joinSegs, hiddenSearch]
      rw [hasSlashDot_of_no_slash s hs2]
      simp
    | cons r rest2 =>
      have hjoin : joinSegs (s :: r :: rest2) = s ++ '/' :: joinSegs (r :: rest2) := rfl
      have hrest := ih (fun q hq => hwf q (List.mem_cons_of_mem s hq))
      rw [hjoin]
      unfold hiddenSearch
      rw [startsWithDot_append s _ hs1, hasSlashDot_append s _ hs2]
      have hslash : hasSlashDot ('/' :: joinSegs (r :: rest2)) =
          (startsWithDot (joinSegs (r :: rest2)) || hasSlashDot (joinSegs (r :: rest2))) := by
        simp [hasSlashDot]
      rw [hslash]
      unfold hiddenSearch at hrest
      constructor
      · intro hor
        rcases Bool.or_eq_true_iff.mp hor with h1 | h1
        · exact ⟨s, List.mem_cons_self s _, h1⟩
        · obtain ⟨q, hq1, hq2⟩ := hrest.mp h1
          exact ⟨q, List.mem_cons_of_mem s hq1, hq2⟩
      · rintro ⟨q, hq1, hq2⟩
        rcases List.mem_cons.mp hq1 with rfl | hq3
        · exact Bool.or_eq_true_iff.mpr (Or.inl hq2)
        · exact Bool.or_eq_true_iff.mpr (Or.inr (hrest.mpr ⟨q, hq3, hq2⟩))

/-! ## Helper lemmas: rule loading -/

theorem normalizeKey_data_head (k : String) :
    startsWithDot (normalizeKey k).data = true := by
  unfold normalizeKey
  dsimp only
  by_cases h : startsWithDot (toLowerStr (trimStr k)).data = true
  · rw [if_pos h]
    exact h
  · rw [if_neg h]
    have hd : ("." ++ toLowerStr (trimStr k)).data = '.' :: (toLowerStr (trimStr k)).data := by
      simp [String.data_append]
    rw [hd]
    rfl

theorem normalizeKey_ne_empty (k : String) : normalizeKey k ≠ "" := by
  intro h
  have := normalizeKey_data_head (k := k)
  rw [h] at this
  exact absurd this (by decide)

theorem foldl_dictGet_skip : ∀ (l : List (String × String)) (acc : Option String)
    (k : String), (∀ kv ∈ l, kv.1 ≠ k) →
    l.foldl (fun acc kv => if kv.1 = k then some kv.2 else acc) acc = acc := by
  intro l
  induction l with
  | nil => intro acc k _; rfl
  | cons kv rest ih =>
    intro acc k h
    have h1 : kv.1 ≠ k := h kv (List.mem_cons_self kv rest)
    simp only [List.foldl_cons, h1, if_false]
    exact ih acc k (fun q hq => h q (List.mem_cons_of_mem kv hq))

theorem dictGet_none_of_no_key (l : List (String × String)) (k : String)
    (h : ∀ kv ∈ l, kv.1 ≠ k) : dictGet l k = none :=
  foldl_dictGet_skip l none k h

theorem load_rules_no_empty_key (data : List (String × String)) :
    dictGet (load_rules (some data)) "" = none := by
  apply dictGet_none_of_no_key
  intro kv hkv
  rcases List.mem_map.mp hkv with ⟨q, -, rfl⟩
  exact normalizeKey_ne_empty q.1

theorem default_rules_no_empty_key : dictGet DEFAULT_RULES "" = none := by decide

/-! ## Helper lemmas: the enumerator -/

theorem mem_iter_files_rec (fs : FS) (root p : FPath) (includeHidden : Bool) :
    p ∈ iter_files fs root true includeHidden ↔
      p ∈ fs.files ∧ (isPrefixB root p && decide (root.length < p.length) &&
        (includeHidden || !(hiddenSearch (relChars root p)))) = true := by
  unfold iter_files
  rw [if_pos rfl]
  exact List.mem_filter

theorem mem_iter_files_nonrec (fs : FS) (root p : FPath) (includeHidden : Bool) :
    p ∈ iter_files fs root false includeHidden ↔
      p ∈ fs.files ∧ (isPrefixB root p && (p.length == root.length + 1) &&
        (includeHidden || !(startsWithDot (fname p).data))) = true := by
  unfold iter_files
  rw [if_neg Bool.false_ne_true]
  exact List.mem_filter

theorem strict_desc_iff (root p : FPath) :
    (isPrefixB root p && decide (root.length < p.length)) = true ↔
      ∃ t, t ≠ [] ∧ p = root ++ t := by
  rw [Bool.and_eq_true, isPrefixB_iff]
  constructor
  · rintro ⟨⟨t, rfl⟩, hlen⟩
    have hl := of_decide_eq_true hlen
    refine ⟨t, ?_, rfl⟩
    rintro rfl
    simp at hl
  · rintro ⟨t, ht, rfl⟩
    refine ⟨⟨t, rfl⟩, decide_eq_true ?_⟩
    have : t.length ≠ 0 := fun h => ht (List.length_eq_zero.mp h)
    simp only [List.length_append]
    omega

theorem direct_child_iff (root p : FPath) :
    (isPrefixB root p && (p.length == root.length + 1)) = true ↔
      ∃ n, p = root ++ [n] := by
  rw [Bool.and_eq_true, isPrefixB_iff]
  constructor
  · rintro ⟨⟨t, rfl⟩, hlen⟩
    have hl : root.length + t.length = root.length + 1 := by
      have := beq_iff_eq.mp hlen
      simpa [List.length_append] using this
    have ht1 : t.length = 1 := by omega
    obtain ⟨n, rfl⟩ := List.length_eq_one.mp ht1
    exact ⟨n, rfl⟩
  · rintro ⟨n, rfl⟩
    refine ⟨⟨[n], rfl⟩, ?_⟩
    simp

theorem hidden_rel_iff (root : FPath) (t : List String)
    (hwfp : ∀ s ∈ t, s.data ≠ [] ∧ ('/' : Char) ∉ s.data) :
    (hiddenSearch (relChars root (root ++ t)) = true ↔
      ∃ s ∈ t, startsWithDot s.data = true) := by
  unfold relChars
  rw [List.drop_left]
  rw [hiddenSearch_joinSegs]
  · constructor
    · rintro ⟨sd, hsd, hstart⟩
      obtain ⟨q, hq, rfl⟩ := List.mem_map.mp hsd
      exact ⟨q, hq, hstart⟩
    · rintro ⟨q, hq, hstart⟩
      exact ⟨q.data, List.mem_map_of_mem _ hq, hstart⟩
  · intro sd hsd
    obtain ⟨q, hq, rfl⟩ := List.mem_map.mp hsd
    exact hwfp q hq

theorem iter_files_nonrec_shape (fs : FS) (root p : FPath) (includeHidden : Bool)
    (h : p ∈ iter_files fs root false includeHidden) :
    p ∈ fs.files ∧ p.length = root.length + 1 := by
  obtain ⟨hp, hcond⟩ := (mem_iter_files_nonrec fs root p includeHidden).mp h
  simp only [Bool.and_eq_true] at hcond
  exact ⟨hp, beq_iff_eq.mp hcond.1.2⟩

/-! ## Claim theorems -/

/-- C4: unique_destination returns dst_dir/name when no entry named name
exists in the target directory; otherwise it returns dst_dir/"stem (k).ext"
for the smallest integer k at least 2 such that that name does not exist at
plan time, and it never produces a "(1)" suffix (the counter starts at 2). -/
theorem c4_unique_destination_spec (fs : FS) (dstDir : FPath) (name : String) :
    (¬ fs.pexists (dstDir ++ [name]) →
      unique_destination fs dstDir name = dstDir ++ [name]) ∧
    (fs.pexists (dstDir ++ [name]) →
      ∃ k, 2 ≤ k ∧
        unique_destination fs dstDir name =
          dstDir ++ [stemOf name ++ " (" ++ natRepr k ++ ")" ++ suffixOf name] ∧
        ¬ fs.pexists (dstDir ++ [stemOf name ++ " (" ++ natRepr k ++ ")" ++ suffixOf name]) ∧
        ∀ i, 2 ≤ i → i < k →
          fs.pexists (dstDir ++ [stemOf name ++ " (" ++ natRepr i ++ ")" ++ suffixOf name])) := by
  constructor
  · exact unique_destination_of_free fs dstDir name
  · intro h
    obtain ⟨k, hk1, hk2, hk3, hk4⟩ := unique_destination_of_collision fs dstDir name h
    exact ⟨k, hk1, hk2, hk3, hk4⟩

/-- Witness for C4: in a directory already holding a.txt, the chosen
destination is a (2).txt, the smallest free renaming from counter 2. -/
theorem c4_unique_destination_spec_witness :
    FS.pexists ⟨[["t", "a.txt"]], [["t"]]⟩ (["t"] ++ ["a.txt"]) ∧
    (∃ k, 2 ≤ k ∧
      unique_destination ⟨[["t", "a.txt"]], [["t"]]⟩ ["t"] "a.txt" =
        ["t"] ++ [stemOf "a.txt" ++ " (" ++ natRepr k ++ ")" ++ suffixOf "a.txt"] ∧
      ¬ FS.pexists ⟨[["t", "a.txt"]], [["t"]]⟩
        (["t"] ++ [stemOf "a.txt" ++ " (" ++ natRepr k ++ ")" ++ suffixOf "a.txt"]) ∧
      ∀ i, 2 ≤ i → i < k →
        FS.pexists ⟨[["t", "a.txt"]], [["t"]]⟩
          (["t"] ++ [stemOf "a.txt" ++ " (" ++ natRepr i ++ ")" ++ suffixOf "a.txt"])) :=
  ⟨by decide, (c4_unique_destination_spec ⟨[["t", "a.txt"]], [["t"]]⟩ ["t"] "a.txt").2 (by decide)⟩

/-- C9: apply_moves attempts every entry even when earlier entries fail;
the returned counts satisfy ok + failed = length of the plan and one error
string is recorded per failure. -/
theorem c9_apply_moves_counts (fs : FS) (moves : List MovePlan) :
    (apply_moves fs moves).ok + (apply_moves fs moves).failed = moves.length ∧
    (apply_moves fs moves).errors.length = (apply_moves fs moves).failed :=
  apply_moves_counts moves fs

/-- C1 counterexample: with two same-named files in different
subdirectories of a recursive scan, plan_moves emits two distinct entries
with the same destination path, because collision checks consult only the
live filesystem, never the plan built so far. -/
theorem c1_counterexample :
    (plan_moves ["src"] ["dst"] true false DEFAULT_RULES "others"
        ⟨[["src", "a", "r.pdf"], ["src", "b", "r.pdf"]],
         [["src"], ["src", "a"], ["src", "b"], ["dst"]]⟩).1.map MovePlan.dst =
      [["dst", "docs", "r.pdf"], ["dst", "docs", "r.pdf"]] ∧
    ¬ ((plan_moves ["src"] ["dst"] true false DEFAULT_RULES "others"
        ⟨[["src", "a", "r.pdf"], ["src", "b", "r.pdf"]],
         [["src"], ["src", "a"], ["src", "b"], ["dst"]]⟩).1.map MovePlan.dst).Nodup := by
  decide

/-- C1 amended: every planned destination is fresh with respect to the
filesystem as it stood when planning started (no planned move targets a
pre-existing file or directory), though two batch entries may coincide. -/
theorem c1_plan_dst_not_preexisting (source dest : FPath)
    (recursive includeHidden : Bool) (rules : List (String × String))
    (unknown : String) (fs : FS) :
    ∀ m ∈ (plan_moves source dest recursive includeHidden rules unknown fs).1,
      ¬ fs.pexists m.dst := by
  intro m hm
  exact planGo_dst_fresh dest rules unknown
    (iter_files fs source recursive includeHidden) fs m hm

/-- Witness for C1 amended: the duplicated destination of the
counterexample nevertheless did not exist on the filesystem beforehand. -/
theorem c1_plan_dst_not_preexisting_witness :
    (⟨["src", "a", "r.pdf"], ["dst", "docs", "r.pdf"]⟩ : MovePlan) ∈
      (plan_moves ["src"] ["dst"] true false DEFAULT_RULES "others"
        ⟨[["src", "a", "r.pdf"], ["src", "b", "r.pdf"]],
         [["src"], ["src", "a"], ["src", "b"], ["dst"]]⟩).1 ∧
    ¬ FS.pexists ⟨[["src", "a", "r.pdf"], ["src", "b", "r.pdf"]],
        [["src"], ["src", "a"], ["src", "b"], ["dst"]]⟩ ["dst", "docs", "r.pdf"] :=
  ⟨by decide,
   c1_plan_dst_not_preexisting ["src"] ["dst"] true false DEFAULT_RULES "others"
     ⟨[["src", "a", "r.pdf"], ["src", "b", "r.pdf"]],
      [["src"], ["src", "a"], ["src", "b"], ["dst"]]⟩
     ⟨["src", "a", "r.pdf"], ["dst", "docs", "r.pdf"]⟩ (by decide)⟩

/-- C10: a file whose name starts with a dot and has no further dot has
empty suffix, so categorize assigns it the unknown fallback both under the
built-in table and under any loaded rule mapping, whose keys all gain a
leading dot during normalization and hence are never the empty string. -/
theorem c10_hidden_no_extension_unknown (d : FPath) (name : String) (rest : List Char)
    (h1 : name.data = '.' :: rest) (h2 : ('.' : Char) ∉ rest)
    (data : List (String × String)) (unknown : String) :
    categorize (d ++ [name]) (load_rules (some data)) unknown = unknown ∧
    categorize (d ++ [name]) DEFAULT_RULES unknown = unknown := by
  have hsuf : suffixOf name = "" := by
    apply suffixOf_no_dot_tail
    rw [h1]
    simpa using h2
  have hext : toLowerStr (suffixOf (fname (d ++ [name]))) = "" := by
    rw [fname_append, hsuf]
    rfl
  constructor
  · unfold categorize
    rw [hext]
    show (match dictGet (load_rules (some data)) "" with
      | some v => v
      | none => unknown) = unknown
    rw [load_rules_no_empty_key data]
  · unfold categorize
    rw [hext]
    show (match dictGet DEFAULT_RULES "" with
      | some v => v
      | none => unknown) = unknown
    rw [default_rules_no_empty_key]

/-- Witness for C10: .env is always categorized as the fallback, even
under a rule file whose author supplied an empty key. -/
theorem c10_hidden_no_extension_unknown_witness :
    ".env".data = '.' :: ['e', 'n', 'v'] ∧ ('.' : Char) ∉ (['e', 'n', 'v'] : List Char) ∧
    categorize (["s"] ++ [".env"]) (load_rules (some [("", "empty")])) "others" = "others" ∧
    categorize (["s"] ++ [".env"]) DEFAULT_RULES "others" = "others" :=
  ⟨by decide, by decide,
   (c10_hidden_no_extension_unknown ["s"] ".env" ['e', 'n', 'v'] (by decide) (by decide)
     [("", "empty")] "others").1,
   (c10_hidden_no_extension_unknown ["s"] ".env" ['e', 'n', 'v'] (by decide) (by decide)
     [("", "empty")] "others").2⟩

/-- C6: categorize looks up the lower-cased final suffix of the file name
(only the final extension, so name.tar.gz is matched by .gz), uses the
empty-string key for names without an extension, and yields the fallback
exactly when the key is absent from the mapping. -/
theorem c6_categorize_final_suffix (d : FPath) (rules : List (String × String))
    (unknown : String) :
    (∀ base ext : String, base.data ≠ [] → ext.data ≠ [] → ('.' : Char) ∉ ext.data →
      categorize (d ++ [base ++ "." ++ ext]) rules unknown =
        match dictGet rules (toLowerStr ("." ++ ext)) with
        | some v => v
        | none => unknown) ∧
    (∀ name : String, ('.' : Char) ∉ name.data.drop 1 →
      categorize (d ++ [name]) rules unknown =
        match dictGet rules "" with
        | some v => v
        | none => unknown) := by
  constructor
  · intro base ext hb he hd
    unfold categorize
    rw [fname_append, suffixOf_decomp base ext hb he hd]
  · intro name h
    unfold categorize
    rw [fname_append, suffixOf_no_dot_tail name h]
    rfl

/-- Witness for C6: name.tar.gz is matched by its final suffix .gz only
(landing in archives, not in a compound-suffix category), and the
extensionless name notes falls through to the empty key. -/
theorem c6_categorize_final_suffix_witness :
    categorize (["s"] ++ ["name.tar" ++ "." ++ "gz"]) DEFAULT_RULES "others" =
      (match dictGet DEFAULT_RULES (toLowerStr ("." ++ "gz")) with
       | some v => v
       | none => "others") ∧
    categorize (["s"] ++ ["notes"]) DEFAULT_RULES "others" =
      (match dictGet DEFAULT_RULES "" with
       | some v => v
       | none => "others") :=
  ⟨(c6_categorize_final_suffix ["s"] DEFAULT_RULES "others").1 "name.tar" "gz"
     (by decide) (by decide) (by decide),
   (c6_categorize_final_suffix ["s"] DEFAULT_RULES "others").2 "notes" (by decide)⟩

/-- The recursive no-hidden filter condition holds exactly for strict
descendants of root none of whose relative segments starts with a dot. -/
theorem rec_nohidden_cond_iff (root p : FPath)
    (hwfp : ∀ s ∈ p, s.data ≠ [] ∧ ('/' : Char) ∉ s.data) :
    (isPrefixB root p && decide (root.length < p.length) &&
      (false || !(hiddenSearch (relChars root p)))) = true ↔
    (∃ t, t ≠ [] ∧ p = root ++ t) ∧
      ∀ s ∈ p.drop root.length, startsWithDot s.data = false := by
  simp only [Bool.false_or, Bool.and_eq_true, Bool.not_eq_true', decide_eq_true_eq]
  rw [isPrefixB_iff]
  constructor
  · rintro ⟨⟨⟨t, rfl⟩, hlen⟩, hh⟩
    have ht : t ≠ [] := by
      rintro rfl
      simp at hlen
    have hwft : ∀ s ∈ t, s.data ≠ [] ∧ ('/' : Char) ∉ s.data := fun s hs =>
      hwfp s (List.mem_append.mpr (Or.inr hs))
    refine ⟨⟨t, ht, rfl⟩, ?_⟩
    intro s hs
    rw [List.drop_left] at hs
    cases hsd : startsWithDot s.data with
    | false => rfl
    | true =>
      have := (hidden_rel_iff root t hwft).mpr ⟨s, hs, hsd⟩
      rw [hh] at this
      exact absurd this (by decide)
  · rintro ⟨⟨t, ht, rfl⟩, hall⟩
    have hwft : ∀ s ∈ t, s.data ≠ [] ∧ ('/' : Char) ∉ s.data := fun s hs =>
      hwfp s (List.mem_append.mpr (Or.inr hs))
    refine ⟨⟨⟨t, rfl⟩, ?_⟩, ?_⟩
    · have : t.length ≠ 0 := fun h => ht (List.length_eq_zero.mp h)
      simp only [List.length_append]
      omega
    · cases hhs : hiddenSearch (relChars root (root ++ t)) with
      | false => rfl
      | true =>
        obtain ⟨s, hs, hsd⟩ := (hidden_rel_iff root t hwft).mp hhs
        have := hall s (by rw [List.drop_left]; exact hs)
        rw [this] at hsd
        exact absurd hsd (by decide)

/-- The non-recursive no-hidden filter condition holds exactly for direct
children of root whose own name does not start with a dot. -/
theorem nonrec_nohidden_cond_iff (root p : FPath) :
    (isPrefixB root p && (p.length == root.length + 1) &&
      (false || !(startsWithDot (fname p).data))) = true ↔
    (∃ n, p = root ++ [n]) ∧ startsWithDot (fname p).data = false := by
  simp only [Bool.false_or, Bool.and_eq_true, Bool.not_eq_true']
  constructor
  · rintro ⟨⟨h1, h2⟩, hh⟩
    refine ⟨(direct_child_iff root p).mp ?_, hh⟩
    rw [Bool.and_eq_true]
    exact ⟨h1, h2⟩
  · rintro ⟨hn, hh⟩
    have hd := (direct_child_iff root p).mpr hn
    rw [Bool.and_eq_true] at hd
    exact ⟨hd, hh⟩

/-- C5: with include-hidden false the enumerator excludes every file whose
own name starts with a dot, and in recursive mode every file any of whose
path segments relative to root starts with a dot; with include-hidden true
no hidden filtering is applied and membership is plain containment under
the root (strict descendants recursively, direct children otherwise). -/
theorem c5_iter_files_hidden_filter (fs : FS) (root p : FPath) (recursive : Bool)
    (hwf : ∀ q ∈ fs.files, ∀ s ∈ q, s.data ≠ [] ∧ ('/' : Char) ∉ s.data) :
    (p ∈ iter_files fs root true false ↔
      p ∈ fs.files ∧ (∃ t, t ≠ [] ∧ p = root ++ t) ∧
        ∀ s ∈ p.drop root.length, startsWithDot s.data = false) ∧
    (p ∈ iter_files fs root false false ↔
      p ∈ fs.files ∧ ((∃ n, p = root ++ [n]) ∧ startsWithDot (fname p).data = false)) ∧
    (p ∈ iter_files fs root recursive true ↔
      p ∈ fs.files ∧
        (if recursive then ∃ t, t ≠ [] ∧ p = root ++ t else ∃ n, p = root ++ [n])) := by
  refine ⟨?_, ?_, ?_⟩
  · rw [mem_iter_files_rec]
    constructor
    · rintro ⟨hp, hcond⟩
      obtain ⟨h1, h2⟩ := (rec_nohidden_cond_iff root p (hwf p hp)).mp hcond
      exact ⟨hp, h1, h2⟩
    · rintro ⟨hp, h1, h2⟩
      exact ⟨hp, (rec_nohidden_cond_iff root p (hwf p hp)).mpr ⟨h1, h2⟩⟩
  · rw [mem_iter_files_nonrec]
    constructor
    · rintro ⟨hp, hcond⟩
      exact ⟨hp, (nonrec_nohidden_cond_iff root p).mp hcond⟩
    · rintro ⟨hp, h1⟩
      exact ⟨hp, (nonrec_nohidden_cond_iff root p).mpr h1⟩
  · cases recursive with
    | true =>
      rw [mem_iter_files_rec]
      simp only [Bool.true_or, Bool.and_true, if_true]
      constructor
      · rintro ⟨hp, hcond⟩
        exact ⟨hp, (strict_desc_iff root p).mp hcond⟩
      · rintro ⟨hp, h1⟩
        exact ⟨hp, (strict_desc_iff root p).mpr h1⟩
    | false =>
      rw [mem_iter_files_nonrec]
      simp only [Bool.true_or, Bool.and_true, if_false]
      constructor
      · rintro ⟨hp, hcond⟩
        exact ⟨hp, (direct_child_iff root p).mp hcond⟩
      · rintro ⟨hp, h1⟩
        exact ⟨hp, (direct_child_iff root p).mpr h1⟩

/-- Witness for C5: in a tree with .env at the root, a file inside .git,
and two visible files, each characterization holds at a concrete path. -/
theorem c5_iter_files_hidden_filter_witness :
    (∀ q ∈ (FS.files ⟨[["s", ".env"], [ "s", "a.txt"], ["s", ".git", "c.py"],
        ["s", "sub", "d.md"]], [["s"]]⟩), ∀ s ∈ q, s.data ≠ [] ∧ ('/' : Char) ∉ s.data) ∧
    ((["s", ".git", "c.py"] : FPath) ∈ iter_files
        ⟨[["s", ".env"], ["s", "a.txt"], ["s", ".git", "c.py"], ["s", "sub", "d.md"]],
         [["s"]]⟩ ["s"] true false ↔
      (["s", ".git", "c.py"] : FPath) ∈ FS.files ⟨[["s", ".env"], ["s", "a.txt"],
          ["s", ".git", "c.py"], ["s", "sub", "d.md"]], [["s"]]⟩ ∧
        (∃ t, t ≠ [] ∧ (["s", ".git", "c.py"] : FPath) = ["s"] ++ t) ∧
        ∀ s ∈ (["s", ".git", "c.py"] : FPath).drop (["s"] : FPath).length,
          startsWithDot s.data = false) :=
  ⟨by decide,
   (c5_iter_files_hidden_filter
     ⟨[["s", ".env"], ["s", "a.txt"], ["s", ".git", "c.py"], ["s", "sub", "d.md"]], [["s"]]⟩
     ["s"] ["s", ".git", "c.py"] true (by decide)).1⟩

/-- C2 counterexample: in recursive mode with dest equal to source, a
second run immediately after a completed first run is not idempotent: the
already-placed d/docs/r.pdf collides with itself and a rename to
r (2).pdf is planned. -/
theorem c2_counterexample :
    (plan_moves ["d"] ["d"] true false DEFAULT_RULES "others"
      (apply_moves
        (plan_moves ["d"] ["d"] true false DEFAULT_RULES "others"
          ⟨[["d", "r.pdf"]], [["d"]]⟩).2
        (plan_moves ["d"] ["d"] true false DEFAULT_RULES "others"
          ⟨[["d", "r.pdf"]], [["d"]]⟩).1).fs).1 =
      [⟨["d", "docs", "r.pdf"], ["d", "docs", "r (2).pdf"]⟩] := by
  decide

/-- C2 amended: for non-recursive runs the organizer is idempotent: every
planned destination sits one level deeper than the scanned direct
children, so immediately re-planning after executing the first plan finds
no direct-child file left to move and returns the empty plan. -/
theorem c2_second_run_empty_nonrecursive (source dest : FPath) (includeHidden : Bool)
    (rules : List (String × String)) (unknown : String) (fs : FS)
    (hnd : fs.files.Nodup) (hsd : dest.length = source.length) :
    (plan_moves source dest false includeHidden rules unknown
      (apply_moves
        (plan_moves source dest false includeHidden rules unknown fs).2
        (plan_moves source dest false includeHidden rules unknown fs).1).fs).1 = [] := by
  unfold plan_moves
  set E := iter_files fs source false includeHidden with hE
  have hEne : ∀ f ∈ E, f.length ≠ dest.length + 2 := by
    intro f hf
    have := (iter_files_nonrec_shape fs source f includeHidden hf).2
    omega
  obtain ⟨hsrcs, hdsts⟩ := planGo_srcs dest rules unknown E fs hEne
  set pr := planGo dest rules unknown E fs with hpr
  have hfs1 : pr.2.files = fs.files := planGo_files dest rules unknown E fs
  set ar := apply_moves pr.2 pr.1 with har
  have hiter : iter_files ar.fs source false includeHidden = [] := by
    unfold iter_files
    rw [if_neg Bool.false_ne_true]
    rw [List.filter_eq_nil_iff]
    intro q hq hcond
    have hlen : q.length = source.length + 1 := by
      simp only [Bool.and_eq_true] at hcond
      exact beq_iff_eq.mp hcond.1.2
    rcases apply_moves_files_subset pr.1 pr.2 q hq with hq3 | hq3
    · rw [hfs1] at hq3
      have hqE : q ∈ E := by
        rw [hE]
        unfold iter_files
        rw [if_neg Bool.false_ne_true]
        exact List.mem_filter.mpr ⟨hq3, hcond⟩
      have hqsrc : q ∈ pr.1.map MovePlan.src := by
        rw [hsrcs]
        exact hqE
      have hqnotdst : q ∉ pr.1.map MovePlan.dst := by
        intro hmem
        obtain ⟨m, hm, rfl⟩ := List.mem_map.mp hmem
        have := hdsts m hm
        omega
      have hnd1 : pr.2.files.Nodup := by
        rw [hfs1]
        exact hnd
      have hsnd : (pr.1.map MovePlan.src).Nodup := by
        rw [hsrcs, hE]
        unfold iter_files
        rw [if_neg Bool.false_ne_true]
        exact hnd.filter _
      exact apply_moves_removes pr.1 pr.2 q hnd1 hsnd hqsrc hqnotdst hq
    · obtain ⟨m, hm, rfl⟩ := List.mem_map.mp hq3
      have := hdsts m hm
      omega
  rw [hiter]
  rfl

/-- Witness for C2 amended: a concrete non-recursive run over two files
moves both and a second run plans nothing. -/
theorem c2_second_run_empty_nonrecursive_witness :
    (FS.files ⟨[["d", "a.pdf"], ["d", "x"]], [["d"]]⟩).Nodup ∧
    (plan_moves ["d"] ["d"] false false DEFAULT_RULES "others"
      (apply_moves
        (plan_moves ["d"] ["d"] false false DEFAULT_RULES "others"
          ⟨[["d", "a.pdf"], ["d", "x"]], [["d"]]⟩).2
        (plan_moves ["d"] ["d"] false false DEFAULT_RULES "others"
          ⟨[["d", "a.pdf"], ["d", "x"]], [["d"]]⟩).1).fs).1 = [] :=
  ⟨by decide,
   c2_second_run_empty_nonrecursive ["d"] ["d"] false DEFAULT_RULES "others"
     ⟨[["d", "a.pdf"], ["d", "x"]], [["d"]]⟩ (by decide) rfl⟩

/-- C3 amended: a dry-run invocation of the organize workflow on a valid
source never runs the Mover, moves nothing, exits 0 and leaves the set of
files untouched; only category directories may be created while planning. -/
theorem c3_dry_run_no_moves (a : Args) (stdin : Option String) (fs : FS)
    (hw : a.writeDefaultRules = none) (hs : a.source ∈ fs.dirs) (hd : a.dryRun = true) :
    (main_model a stdin fs).exitCode = 0 ∧
    (main_model a stdin fs).moved = 0 ∧
    (main_model a stdin fs).moverRan = false ∧
    (main_model a stdin fs).fs.files = fs.files := by
  unfold main_model
  rw [hw]
  dsimp only
  rw [if_pos hs]
  have hfiles : (plan_moves a.source (a.dest.getD a.source) a.recursive a.includeHidden
      (load_rules a.rulesData) a.unknownFolder fs).2.files = fs.files := by
    unfold plan_moves
    exact planGo_files _ _ _ _ _
  by_cases hpr : (plan_moves a.source (a.dest.getD a.source) a.recursive a.includeHidden
      (load_rules a.rulesData) a.unknownFolder fs).1 = []
  · rw [if_pos hpr]
    exact ⟨rfl, rfl, rfl, hfiles⟩
  · rw [if_neg hpr, hd]
    rw [if_pos rfl]
    exact ⟨rfl, rfl, rfl, hfiles⟩

/-- Witness for C3 amended: a concrete dry run reports exit 0, no moves,
no Mover, and an unchanged file list. -/
theorem c3_dry_run_no_moves_witness :
    (main_model
      ⟨["s"], none, none, "others", false, false, true, false, none⟩
      none ⟨[["s", "a.pdf"]], [["s"]]⟩).exitCode = 0 ∧
    (main_model
      ⟨["s"], none, none, "others", false, false, true, false, none⟩
      none ⟨[["s", "a.pdf"]], [["s"]]⟩).moved = 0 ∧
    (main_model
      ⟨["s"], none, none, "others", false, false, true, false, none⟩
      none ⟨[["s", "a.pdf"]], [["s"]]⟩).moverRan = false ∧
    (main_model
      ⟨["s"], none, none, "others", false, false, true, false, none⟩
      none ⟨[["s", "a.pdf"]], [["s"]]⟩).fs.files =
      FS.files ⟨[["s", "a.pdf"]], [["s"]]⟩ :=
  c3_dry_run_no_moves
    ⟨["s"], none, none, "others", false, false, true, false, none⟩
    none ⟨[["s", "a.pdf"]], [["s"]]⟩ rfl (by decide) rfl

/-- C3 counterexample: the same concrete dry run does change the
filesystem tree: the category directory s/docs is created during
planning, so a full before and after snapshot is not identical. -/
theorem c3_counterexample :
    (main_model
      ⟨["s"], none, none, "others", false, false, true, false, none⟩
      none ⟨[["s", "a.pdf"]], [["s"]]⟩).fs ≠ ⟨[["s", "a.pdf"]], [["s"]]⟩ ∧
    (["s", "docs"] : FPath) ∈ (main_model
      ⟨["s"], none, none, "others", false, false, true, false, none⟩
      none ⟨[["s", "a.pdf"]], [["s"]]⟩).fs.dirs ∧
    (["s", "docs"] : FPath) ∉ FS.dirs ⟨[["s", "a.pdf"]], [["s"]]⟩ := by
  decide

/-- C7: when neither dry-run nor yes is set and the plan is non-empty, the
program prompts, and any standard-input response that does not strip and
lower-case to y, end-of-input included, aborts: nothing is moved, the
Mover never runs, Aborted. is printed and the exit code is 0. -/
theorem c7_nonaffirmative_aborts (a : Args) (stdin : Option String) (fs : FS)
    (hw : a.writeDefaultRules = none) (hs : a.source ∈ fs.dirs)
    (hd : a.dryRun = false) (hy : a.yes = false)
    (hm : (plan_moves a.source (a.dest.getD a.source) a.recursive a.includeHidden
      (load_rules a.rulesData) a.unknownFolder fs).1 ≠ [])
    (hn : ∀ s, stdin = some s → toLowerStr (trimStr s) ≠ "y") :
    (main_model a stdin fs).exitCode = 0 ∧
    (main_model a stdin fs).moved = 0 ∧
    (main_model a stdin fs).moverRan = false ∧
    (main_model a stdin fs).prompted = true ∧
    "Aborted." ∈ (main_model a stdin fs).output := by
  have haff : affirmative stdin = false := by
    cases stdin with
    | none => rfl
    | some s =>
      unfold affirmative
      exact beq_eq_false_iff_ne.mpr (hn s rfl)
  unfold main_model
  rw [hw]
  dsimp only
  rw [if_pos hs, if_neg hm, hd]
  rw [if_neg Bool.false_ne_true]
  rw [hy, haff, Bool.false_or]
  rw [if_neg Bool.false_ne_true]
  refine ⟨rfl, rfl, rfl, rfl, ?_⟩
  simp

/-- Witness for C7: the response n aborts a concrete run with exit 0. -/
theorem c7_nonaffirmative_aborts_witness :
    (main_model
      ⟨["s"], none, none, "others", false, false, false, false, none⟩
      (some "n") ⟨[["s", "a.pdf"]], [["s"]]⟩).exitCode = 0 ∧
    (main_model
      ⟨["s"], none, none, "others", false, false, false, false, none⟩
      (some "n") ⟨[["s", "a.pdf"]], [["s"]]⟩).moved = 0 ∧
    (main_model
      ⟨["s"], none, none, "others", false, false, false, false, none⟩
      (some "n") ⟨[["s", "a.pdf"]], [["s"]]⟩).moverRan = false ∧
    (main_model
      ⟨["s"], none, none, "others", false, false, false, false, none⟩
      (some "n") ⟨[["s", "a.pdf"]], [["s"]]⟩).prompted = true ∧
    "Aborted." ∈ (main_model
      ⟨["s"], none, none, "others", false, false, false, false, none⟩
      (some "n") ⟨[["s", "a.pdf"]], [["s"]]⟩).output :=
  c7_nonaffirmative_aborts
    ⟨["s"], none, none, "others", false, false, false, false, none⟩
    (some "n") ⟨[["s", "a.pdf"]], [["s"]]⟩ rfl (by decide) rfl rfl (by decide)
    (by intro s hs; cases hs; decide)

/-- C8: with a write-default-rules target that already exists, the run
fails with exit 1, writes nothing and never reaches the organize
workflow; with a fresh target it writes the built-in mapping and exits 0
immediately. -/
theorem c8_write_default_rules_spec (a : Args) (stdin : Option String) (fs : FS)
    (p : FPath) (hw : a.writeDefaultRules = some p) :
    (fs.pexists p →
      (main_model a stdin fs).exitCode = 1 ∧
      (main_model a stdin fs).fs = fs ∧
      (main_model a stdin fs).written = [] ∧
      (main_model a stdin fs).organizeRan = false ∧
      (main_model a stdin fs).moverRan = false) ∧
    (¬ fs.pexists p →
      (main_model a stdin fs).exitCode = 0 ∧
      (main_model a stdin fs).written = [(p, DEFAULT_RULES)] ∧
      (main_model a stdin fs).fs.files = p :: fs.files ∧
      (main_model a stdin fs).organizeRan = false ∧
      (main_model a stdin fs).moverRan = false) := by
  unfold main_model
  rw [hw]
  dsimp only
  constructor
  · intro h
    rw [if_pos h]
    exact ⟨rfl, rfl, rfl, rfl, rfl⟩
  · intro h
    rw [if_neg h]
    exact ⟨rfl, rfl, rfl, rfl, rfl⟩

/-- Witness for C8: refusing an existing rules.json target with exit 1 and
nothing written. -/
theorem c8_write_default_rules_spec_witness :
    FS.pexists ⟨[["rules.json"]], []⟩ ["rules.json"] ∧
    ((main_model
        ⟨["s"], none, none, "others", false, false, false, false, some ["rules.json"]⟩
        none ⟨[["rules.json"]], []⟩).exitCode = 1 ∧
      (main_model
        ⟨["s"], none, none, "others", false, false, false, false, some ["rules.json"]⟩
        none ⟨[["rules.json"]], []⟩).fs = ⟨[["rules.json"]], []⟩ ∧
      (main_model
        ⟨["s"], none, none, "others", false, false, false, false, some ["rules.json"]⟩
        none ⟨[["rules.json"]], []⟩).written = [] ∧
      (main_model
        ⟨["s"], none, none, "others", false, false, false, false, some ["rules.json"]⟩
        none ⟨[["rules.json"]], []⟩).organizeRan = false ∧
      (main_model
        ⟨["s"], none, none, "others", false, false, false, false, some ["rules.json"]⟩
        none ⟨[["rules.json"]], []⟩).moverRan = false) :=
  ⟨by decide,
   (c8_write_default_rules_spec
     ⟨["s"], none, none, "others", false, false, false, false, some ["rules.json"]⟩
     none ⟨[["rules.json"]], []⟩ ["rules.json"] rfl).1 (by decide)⟩
